import Mathlib

/-!
Verification of the heredity inference engine (`heredity.py`).

The Python source is shallowly embedded below: Python floats become exact
rationals (`ℚ`), Python dicts become association lists in insertion order,
Python sets of names become lists of names with decidable membership, and
fallible Python code (KeyError, TypeError from an empty `reduce`,
ZeroDivisionError) becomes `Except`-valued functions.
-/

namespace Heredity

/-- Equality of `Except` values is decidable when it is on both sides. -/
instance exceptDecEq {ε α : Type} [DecidableEq ε] [DecidableEq α] :
    DecidableEq (Except ε α) := fun a b =>
  match a, b with
  | .ok x, .ok y =>
    if h : x = y then .isTrue (by rw [h]) else
      .isFalse (fun hh => by cases hh; exact h rfl)
  | .ok _, .error _ => .isFalse (fun hh => by cases hh)
  | .error _, .ok _ => .isFalse (fun hh => by cases hh)
  | .error x, .error y =>
    if h : x = y then .isTrue (by rw [h]) else
      .isFalse (fun hh => by cases hh; exact h rfl)

abbrev Name := String

/-- `PROBS["gene"]`: unconditional probability of each gene-copy count.
Gene numbers other than 0, 1, 2 never arise (the dict has only these keys). -/
def PROBS_gene : Nat → ℚ
  | 0 => 0.96
  | 1 => 0.03
  | 2 => 0.01
  | _ => 0

/-- `PROBS["trait"]`: probability of the trait value given the gene count. -/
def PROBS_trait : Nat → Bool → ℚ
  | 0, true => 0.01
  | 0, false => 0.99
  | 1, true => 0.56
  | 1, false => 0.44
  | 2, true => 0.65
  | 2, false => 0.35
  | _, _ => 0

/-- `PROBS["mutation"]`. -/
def PROBS_mutation : ℚ := 0.01

/-- One individual, as stored in the `people` dict built by `load_data`:
a name, optional parent names, and a tri-state observed trait. -/
structure Person where
  name : Name
  mother : Option Name
  father : Option Name
  trait : Option Bool
deriving DecidableEq, Repr

abbrev People := List Person

/-- Runtime failures of the Python source.  `keyError`, `typeError` and
`zeroDivisionError` are the built-in exceptions the code can actually raise;
`indeterminateEvidenceError` and `malformedPedigreeError` are the error
classes named by the specification (no such classes exist in the source;
the constructors are present so the spec's claims can be stated). -/
inductive HeredityError where
  | keyError
  | typeError
  | zeroDivisionError
  | indeterminateEvidenceError
  | malformedPedigreeError
deriving DecidableEq, Repr

/-- One raw CSV row: fields `name`, `mother`, `father`, `trait`,
each a string, `""` standing for a blank field. -/
structure Row where
  name : Name
  mother : Name
  father : Name
  trait : Name
deriving DecidableEq, Repr

/-- Decoding of one CSV row inside `load_data`:
`row["mother"] or None` turns a blank field into `None`, and the trait
literal is `True` for `"1"`, `False` for `"0"`, and `None` otherwise. -/
def decodeRow (row : Row) : Person :=
  { name := row.name
    mother := if row.mother = "" then none else some row.mother
    father := if row.father = "" then none else some row.father
    trait := if row.trait = "1" then some true
             else if row.trait = "0" then some false
             else none }

/-- `data[name] = {...}` on a Python dict: replace in place when the key
exists, append otherwise. -/
def dictInsert (data : People) (p : Person) : People :=
  if data.any (fun q => q.name == p.name) then
    data.map (fun q => if q.name == p.name then p else q)
  else
    data ++ [p]

/-- `load_data`: build the `people` dict from the CSV rows. -/
def load_data (rows : List Row) : People :=
  rows.foldl (fun data row => dictInsert data (decodeRow row)) []

/-- `set(people)`: the set of names, in first-appearance order. -/
def names (people : People) : List Name :=
  (people.map Person.name).dedup

/-- `people[nm]`: dict lookup by name. -/
def lookupPerson (people : People) (nm : Name) : Option Person :=
  people.find? (fun p => p.name == nm)

/-- `powerset(s)`: all subsets of `s`, grouped by size as
`itertools.combinations(s, r)` for `r = 0 .. len(s)` produces them. -/
def powerset (s : List Name) : List (List Name) :=
  (List.range (s.length + 1)).flatMap (fun r => List.sublistsLen r s)

/-- `get_gene_numbers` assigns this gene count to one name:
1 if in `one_gene`, else 2 if in `two_genes`, else 0. -/
def geneNumber (one_gene two_genes : List Name) (nm : Name) : Nat :=
  if one_gene.contains nm then 1
  else if two_genes.contains nm then 2
  else 0

/-- `get_gene_numbers(people, one_gene, two_genes)`: the dict mapping each
person's name to its hypothesized gene count. -/
def get_gene_numbers (people : People) (one_gene two_genes : List Name) :
    List (Name × Nat) :=
  people.map (fun p => (p.name, geneNumber one_gene two_genes p.name))

/-- `genes[nm]`: dict lookup, `KeyError` when the name is absent. -/
def lookupGene (genes : List (Name × Nat)) (nm : Name) :
    Except HeredityError Nat :=
  match genes.find? (fun e => e.1 == nm) with
  | some e => .ok e.2
  | none => .error .keyError

/-- `parent_giving(parent_gene, giving)`: probability that a parent with
`parent_gene` copies transmits (`giving = true`) or does not transmit an
active allele. -/
def parent_giving (parent_gene : Nat) (giving : Bool) : ℚ :=
  if giving then
    if parent_gene = 0 then PROBS_mutation
    else if parent_gene = 1 then 0.5
    else 1 - PROBS_mutation
  else
    if parent_gene = 0 then 1 - PROBS_mutation
    else if parent_gene = 1 then 0.5
    else PROBS_mutation

/-- The inheritance branch of `joint_probability` (the
`if gene == 0 / elif gene == 1 / else` block): probability that a child of
parents with gene counts `mother_gene`, `father_gene` has gene count `gene`. -/
def inherit_prob (mother_gene father_gene gene : Nat) : ℚ :=
  if gene = 0 then
    parent_giving mother_gene false * parent_giving father_gene false
  else if gene = 1 then
    parent_giving mother_gene false * parent_giving father_gene true +
      parent_giving mother_gene true * parent_giving father_gene false
  else
    parent_giving mother_gene true * parent_giving father_gene true

/-- The body of the `for name in has_no_parents` loop of
`joint_probability`: `PROBS["gene"][gene] * PROBS["trait"][gene][name in have_trait]`. -/
def noParentEntry (genes : List (Name × Nat)) (have_trait : List Name)
    (p : Person) : Except HeredityError ℚ :=
  match lookupGene genes p.name with
  | .error e => .error e
  | .ok gene =>
    .ok (PROBS_gene gene * PROBS_trait gene (have_trait.contains p.name))

/-- The body of the `for name in has_parents` loop of `joint_probability`:
look up both parents' gene counts (a missing or dangling parent is a
`KeyError`), apply the inheritance model, multiply by the trait likelihood. -/
def parentEntry (genes : List (Name × Nat)) (have_trait : List Name)
    (p : Person) : Except HeredityError ℚ :=
  match p.mother with
  | none => .error .keyError
  | some m =>
    match lookupGene genes m with
    | .error e => .error e
    | .ok mother_gene =>
      match p.father with
      | none => .error .keyError
      | some f =>
        match lookupGene genes f with
        | .error e => .error e
        | .ok father_gene =>
          match lookupGene genes p.name with
          | .error e => .error e
          | .ok gene =>
            .ok (inherit_prob mother_gene father_gene gene *
              PROBS_trait gene (have_trait.contains p.name))

/-- `reduce(lambda x, y: x * y, values)`: left fold with the first element
as the seed; a `TypeError` on an empty sequence. -/
def reduceMul : List ℚ → Except HeredityError ℚ
  | [] => .error .typeError
  | x :: xs => .ok (xs.foldl (fun a b => a * b) x)

/-- One of the two `for name in ...` loops of `joint_probability`: compute
every person's factor in order, stopping at the first raised exception. -/
def mapEntries (f : Person → Except HeredityError ℚ) :
    People → Except HeredityError (List ℚ)
  | [] => .ok []
  | p :: rest =>
    match f p with
    | .error e => .error e
    | .ok q =>
      match mapEntries f rest with
      | .error e => .error e
      | .ok qs => .ok (q :: qs)

/-- `joint_probability(people, one_gene, two_genes, have_trait)`:
partition the people into those without and with a recorded mother,
compute each one's factor, and multiply all factors together
(the `probabilities` dict holds the parentless people first). -/
def joint_probability (people : People)
    (one_gene two_genes have_trait : List Name) : Except HeredityError ℚ :=
  let has_no_parents := people.filter (fun p => p.mother.isNone)
  let has_parents := people.filter (fun p => !p.mother.isNone)
  let genes := get_gene_numbers people one_gene two_genes
  match mapEntries (noParentEntry genes have_trait) has_no_parents with
  | .error e => .error e
  | .ok l1 =>
    match mapEntries (parentEntry genes have_trait) has_parents with
    | .error e => .error e
    | .ok l2 => reduceMul (l1 ++ l2)

/-- The per-person pair of unnormalized distributions held in the
`probabilities` accumulator of `main`. -/
structure PD where
  gene0 : ℚ
  gene1 : ℚ
  gene2 : ℚ
  traitT : ℚ
  traitF : ℚ
deriving DecidableEq, Repr

abbrev Acc := List (Name × PD)

/-- The zeroed accumulator `main` starts from. -/
def initAcc (people : People) : Acc :=
  people.map (fun p => (p.name, ⟨0, 0, 0, 0, 0⟩))

/-- One person's share of an `update` call: add `p` to the gene bucket
selected by `gene` and to the trait bucket selected by `t`. -/
def addPD (d : PD) (gene : Nat) (t : Bool) (p : ℚ) : PD :=
  let d1 :=
    if gene = 0 then { d with gene0 := d.gene0 + p }
    else if gene = 1 then { d with gene1 := d.gene1 + p }
    else if gene = 2 then { d with gene2 := d.gene2 + p }
    else d
  if t then { d1 with traitT := d1.traitT + p }
  else { d1 with traitF := d1.traitF + p }

/-- `update(probabilities, one_gene, two_genes, have_trait, p)`: every
person's gene bucket for its hypothesized gene count and its trait bucket
both gain `p`. -/
def update (acc : Acc) (one_gene two_genes have_trait : List Name)
    (p : ℚ) : Acc :=
  acc.map (fun e =>
    (e.1, addPD e.2 (geneNumber one_gene two_genes e.1)
      (have_trait.contains e.1) p))

/-- `sum(probabilities[name]["gene"].values())`. -/
def geneTotal (d : PD) : ℚ := d.gene2 + d.gene1 + d.gene0

/-- `sum(probabilities[name]["trait"].values())`. -/
def traitTotal (d : PD) : ℚ := d.traitT + d.traitF

/-- One person's entries after `normalize` divides them by their totals. -/
def normEntry (d : PD) : PD :=
  ⟨d.gene0 / geneTotal d, d.gene1 / geneTotal d, d.gene2 / geneTotal d,
    d.traitT / traitTotal d, d.traitF / traitTotal d⟩

/-- `normalize(probabilities)`: divide each person's two mappings by their
own sums, person by person.  A zero total is Python's built-in
`ZeroDivisionError` (the source performs no check of its own). -/
def normalize : Acc → Except HeredityError Acc
  | [] => .ok []
  | e :: rest =>
    if geneTotal e.2 = 0 ∨ traitTotal e.2 = 0 then
      .error .zeroDivisionError
    else
      match normalize rest with
      | .error err => .error err
      | .ok rest' => .ok ((e.1, normEntry e.2) :: rest')

/-- `people[person]["trait"] is not None and people[person]["trait"] != (person in have_trait)`
for some `person in names`: the current trait subset contradicts the
evidence. -/
def fails_evidence (people : People) (have_trait : List Name) : Bool :=
  (names people).any (fun nm =>
    match lookupPerson people nm with
    | some p =>
      match p.trait with
      | some b => b != have_trait.contains nm
      | none => false
    | none => false)

/-- One gene/trait hypothesis of the enumeration loop of `main`. -/
structure Hyp where
  one_gene : List Name
  two_genes : List Name
  have_trait : List Name
deriving DecidableEq, Repr

/-- The hypotheses `main` passes to `joint_probability`, in loop order:
trait subsets surviving the evidence check, then all `one_gene` subsets,
then all `two_genes` subsets of the remaining names. -/
def hypothesesList (people : People) : List Hyp :=
  (powerset (names people)).flatMap (fun have_trait =>
    if fails_evidence people have_trait then []
    else
      (powerset (names people)).flatMap (fun one_gene =>
        (powerset ((names people).filter
            (fun nm => !one_gene.contains nm))).map (fun two_genes =>
          ⟨one_gene, two_genes, have_trait⟩)))

/-- The accumulation loop of `main` from a given accumulator: compute each
hypothesis's joint probability and fold it in, in order. -/
def accumulateFrom (people : People) (acc : Acc) :
    List Hyp → Except HeredityError Acc
  | [] => .ok acc
  | h :: rest =>
    match joint_probability people h.one_gene h.two_genes h.have_trait with
    | .error e => .error e
    | .ok p =>
      accumulateFrom people (update acc h.one_gene h.two_genes h.have_trait p)
        rest

/-- The accumulation loop of `main` over an explicit list of hypotheses,
starting from the zeroed accumulator. -/
def accumulate (people : People) (hyps : List Hyp) :
    Except HeredityError Acc :=
  accumulateFrom people (initAcc people) hyps

/-- The whole inference pipeline of `main` after `load_data`:
enumerate, accumulate, normalize. -/
def infer (people : People) : Except HeredityError Acc :=
  match accumulate people (hypothesesList people) with
  | .error e => .error e
  | .ok acc => normalize acc

/-! Definitions written from the specification's words, to be compared with
the embedded source code. -/

/-- Modelled from the spec: `Pt(pg)`, the probability that a parent with
gene count `pg` transmits an active allele.  The spec defines it only on
gene counts 0, 1, 2. -/
def specPt : Nat → ℚ
  | 0 => PROBS_mutation
  | 1 => 0.5
  | 2 => 1 - PROBS_mutation
  | _ => 0

/-- Modelled from the spec: `Pnt(pg) = 1 - Pt(pg)`. -/
def specPnt (pg : Nat) : ℚ := 1 - specPt pg

/-- Modelled from the spec: `P(child = g)` given the parents' hypothesized
gene counts, via the transmit-active probabilities. -/
def specChildDist (mg fg : Nat) : Nat → ℚ
  | 0 => specPnt mg * specPnt fg
  | 1 => specPt mg * specPnt fg + specPnt mg * specPt fg
  | 2 => specPt mg * specPt fg
  | _ => 0

/-- Modelled from the spec: one individual's contribution to the joint
probability.  A parentless individual with gene count `g` and trait
membership `t` contributes `GenePrior[g] * TraitGivenGene[g][t]`; an
individual with parents contributes `P(child = g) * TraitGivenGene[g][t]`
computed from the parents' hypothesized gene counts. -/
def specContribution (one_gene two_genes have_trait : List Name)
    (p : Person) : ℚ :=
  let g := geneNumber one_gene two_genes p.name
  let t := have_trait.contains p.name
  match p.mother, p.father with
  | some m, some f =>
    specChildDist (geneNumber one_gene two_genes m)
      (geneNumber one_gene two_genes f) g * PROBS_trait g t
  | _, _ => PROBS_gene g * PROBS_trait g t

/-- The joint probability as a total function (its value on the `.ok` path,
0 on an exception); used to relate the accumulation loop to a pure fold. -/
def jointValue (people : People) (h : Hyp) : ℚ :=
  match joint_probability people h.one_gene h.two_genes h.have_trait with
  | .ok q => q
  | .error _ => 0

/-- The arguments of one `update` call. -/
structure UpdCall where
  one_gene : List Name
  two_genes : List Name
  have_trait : List Name
  p : ℚ
deriving DecidableEq, Repr

/-- Replay a sequence of `update` calls on an accumulator. -/
def applyUpdates (acc : Acc) : List UpdCall → Acc
  | [] => acc
  | c :: rest =>
    applyUpdates (update acc c.one_gene c.two_genes c.have_trait c.p) rest

/-- The pure accumulation fold used to compare two enumeration orders. -/
def accumulateVals (people : People) (acc : Acc) (hyps : List Hyp) : Acc :=
  hyps.foldl (fun a h =>
    update a h.one_gene h.two_genes h.have_trait (jointValue people h)) acc

/-! Helper lemmas. -/

/-- A gene number is always 0, 1 or 2. -/
lemma geneNumber_cases (og tg : List Name) (nm : Name) :
    geneNumber og tg nm = 0 ∨ geneNumber og tg nm = 1 ∨
      geneNumber og tg nm = 2 := by
  unfold geneNumber
  split_ifs <;> simp

/-- `addPD` written field by field. -/
lemma addPD_fields (d : PD) (g : Nat) (t : Bool) (p : ℚ) :
    addPD d g t p =
      ⟨d.gene0 + (if g = 0 then p else 0),
       d.gene1 + (if g = 1 then p else 0),
       d.gene2 + (if g = 2 then p else 0),
       d.traitT + (if t then p else 0),
       d.traitF + (if t then 0 else p)⟩ := by
  unfold addPD
  split_ifs with h0 h1 h2 <;> cases t <;> simp_all

/-- Folding `dictInsert` over rows with globally fresh names appends the
decoded rows. -/
lemma load_data_loop_eq (rows : List Row) :
    ∀ data : People,
      (data.map Person.name ++ rows.map Row.name).Nodup →
      rows.foldl (fun d row => dictInsert d (decodeRow row)) data =
        data ++ rows.map decodeRow := by
  induction rows with
  | nil => intro data _; simp
  | cons row rest ih =>
    intro data hnd
    have hnotin : row.name ∉ data.map Person.name := by
      intro hmem
      exact (List.nodup_append.mp hnd).2.2 hmem (by simp)
    have hname : (decodeRow row).name = row.name := rfl
    have hins : dictInsert data (decodeRow row) = data ++ [decodeRow row] := by
      unfold dictInsert
      rw [if_neg]
      simp only [List.any_eq_true, hname, beq_iff_eq, not_exists, not_and]
      intro q hq hqname
      exact hnotin (List.mem_map.mpr ⟨q, hq, hqname⟩)
    have hnd' :
        ((data ++ [decodeRow row]).map Person.name ++
          rest.map Row.name).Nodup := by
      simp only [List.map_append, List.map_cons, List.map_nil, hname]
      rw [List.append_assoc]
      simpa using hnd
    rw [List.foldl_cons, hins, ih (data ++ [decodeRow row]) hnd']
    simp

/-- `normalize` succeeds entrywise when every total is nonzero. -/
lemma normalize_ok_of_nonzero (acc : Acc)
    (h : ∀ e ∈ acc, geneTotal e.2 ≠ 0 ∧ traitTotal e.2 ≠ 0) :
    normalize acc = .ok (acc.map (fun e => (e.1, normEntry e.2))) := by
  induction acc with
  | nil => simp [normalize]
  | cons e rest ih =>
    have he := h e (List.mem_cons_self e rest)
    have hcond : ¬(geneTotal e.2 = 0 ∨ traitTotal e.2 = 0) := by
      rcases he with ⟨h1, h2⟩
      rintro (hh | hh)
      exacts [h1 hh, h2 hh]
    have hrest := ih (fun x hx => h x (List.mem_cons_of_mem e hx))
    simp only [normalize, hrest, if_neg hcond, List.map_cons]

/-- Replaying update calls adds the total accumulated mass to both the
gene-bucket sum and the trait-bucket sum of every entry. -/
lemma applyUpdates_sums (calls : List UpdCall) :
    ∀ (acc : Acc) (s : ℚ),
      (∀ e ∈ acc, e.2.gene0 + e.2.gene1 + e.2.gene2 = s ∧
        e.2.traitT + e.2.traitF = s) →
      ∀ e ∈ applyUpdates acc calls,
        e.2.gene0 + e.2.gene1 + e.2.gene2 = s + (calls.map UpdCall.p).sum ∧
        e.2.traitT + e.2.traitF = s + (calls.map UpdCall.p).sum := by
  induction calls with
  | nil =>
    intro acc s h e he
    simpa using h e (by simpa [applyUpdates] using he)
  | cons c rest ih =>
    intro acc s h e he
    have hstep : ∀ e' ∈ update acc c.one_gene c.two_genes c.have_trait c.p,
        e'.2.gene0 + e'.2.gene1 + e'.2.gene2 = s + c.p ∧
        e'.2.traitT + e'.2.traitF = s + c.p := by
      intro e' he'
      rcases List.mem_map.mp he' with ⟨e0, he0, rfl⟩
      obtain ⟨h1, h2⟩ := h e0 he0
      constructor
      · rw [addPD_fields]
        rcases geneNumber_cases c.one_gene c.two_genes e0.1 with hg | hg | hg <;>
          rw [hg] <;> simp <;> linarith
      · rw [addPD_fields]
        cases c.have_trait.contains e0.1 <;> simp <;> linarith
    have hrec := ih (update acc c.one_gene c.two_genes c.have_trait c.p)
      (s + c.p) hstep e (by simpa [applyUpdates] using he)
    have hsum : s + ((c :: rest).map UpdCall.p).sum =
        s + c.p + (rest.map UpdCall.p).sum := by
      rw [List.map_cons, List.sum_cons]
      ring
    rw [hsum]
    exact hrec

/-- Boolean list membership agrees with propositional membership. -/
lemma contains_eq_true_iff (l : List Name) (nm : Name) :
    l.contains nm = true ↔ nm ∈ l := by
  simp [List.contains_iff_exists_mem_beq]

/-- `get_gene_numbers` has an entry for every person, holding that name's
gene number. -/
lemma find?_get_gene_numbers (people : People) (og tg : List Name)
    (nm : Name) :
    nm ∈ people.map Person.name →
    (get_gene_numbers people og tg).find? (fun e => e.1 == nm) =
      some (nm, geneNumber og tg nm) := by
  induction people with
  | nil => intro h; simp at h
  | cons p rest ih =>
    intro hmem
    unfold get_gene_numbers
    rw [List.map_cons, List.find?_cons]
    by_cases h : p.name = nm
    · subst h
      simp
    · have hm : nm ∈ rest.map Person.name := by
        rw [List.map_cons] at hmem
        rcases List.mem_cons.mp hmem with h' | h'
        · exact absurd h'.symm h
        · exact h'
      have hrec := ih hm
      unfold get_gene_numbers at hrec
      have hb : (p.name == nm) = false := by
        simpa using h
      simp [hb, hrec]

/-- Gene-dict lookup of a resolvable name. -/
lemma lookupGene_eq (people : People) (og tg : List Name) (nm : Name)
    (hmem : nm ∈ people.map Person.name) :
    lookupGene (get_gene_numbers people og tg) nm =
      .ok (geneNumber og tg nm) := by
  unfold lookupGene
  rw [find?_get_gene_numbers people og tg nm hmem]

/-- `mapEntries` succeeds with the pointwise values when every entry
computation succeeds. -/
lemma mapEntries_ok (f : Person → Except HeredityError ℚ) (g : Person → ℚ)
    (l : People) (h : ∀ p ∈ l, f p = .ok (g p)) :
    mapEntries f l = .ok (l.map g) := by
  induction l with
  | nil => simp [mapEntries]
  | cons p rest ih =>
    have hrest := ih (fun q hq => h q (List.mem_cons_of_mem p hq))
    simp [mapEntries, h p (List.mem_cons_self p rest), hrest]

/-- The source's inheritance branch agrees with the spec's child
distribution on gene counts 0, 1, 2. -/
lemma inherit_eq_spec (mg fg g : Nat)
    (hm : mg = 0 ∨ mg = 1 ∨ mg = 2) (hf : fg = 0 ∨ fg = 1 ∨ fg = 2)
    (hg : g = 0 ∨ g = 1 ∨ g = 2) :
    inherit_prob mg fg g = specChildDist mg fg g := by
  have hpt : ∀ pg : Nat, pg = 0 ∨ pg = 1 ∨ pg = 2 →
      parent_giving pg true = specPt pg ∧
      parent_giving pg false = specPnt pg := by
    intro pg hpg
    rcases hpg with rfl | rfl | rfl <;>
      exact ⟨by norm_num [parent_giving, specPt, PROBS_mutation],
        by norm_num [parent_giving, specPt, specPnt, PROBS_mutation]⟩
  obtain ⟨hmt, hmf⟩ := hpt mg hm
  obtain ⟨hft, hff⟩ := hpt fg hf
  rcases hg with rfl | rfl | rfl
  · simp [inherit_prob, specChildDist, hmt, hmf, hft, hff]
  · simp only [inherit_prob, specChildDist, hmt, hmf, hft, hff]
    norm_num
    ring
  · simp [inherit_prob, specChildDist, hmt, hmf, hft, hff]

/-- `reduce` of a nonempty list of factors is their product. -/
lemma reduceMul_eq_prod (l : List ℚ) (hne : l ≠ []) :
    reduceMul l = .ok l.prod := by
  have hfold : ∀ (xs : List ℚ) (x : ℚ),
      xs.foldl (fun a b => a * b) x = x * xs.prod := by
    intro xs
    induction xs with
    | nil => intro x; simp
    | cons y ys ih => intro x; simp [ih, mul_assoc]
  match l with
  | [] => exact absurd rfl hne
  | x :: xs => simp [reduceMul, hfold, List.prod_cons]

/-- A parentless entry computes the spec contribution. -/
lemma noParentEntry_spec (people : People) (og tg ht : List Name)
    (p : Person) (hp : p ∈ people) (hnp : p.mother = none) :
    noParentEntry (get_gene_numbers people og tg) ht p =
      .ok (specContribution og tg ht p) := by
  unfold noParentEntry
  rw [lookupGene_eq people og tg p.name (List.mem_map.mpr ⟨p, hp, rfl⟩)]
  unfold specContribution
  rw [hnp]

/-- An entry with both parents resolvable computes the spec contribution. -/
lemma parentEntry_spec (people : People) (og tg ht : List Name)
    (p : Person) (hp : p ∈ people) (m f : Name)
    (hm : p.mother = some m) (hf : p.father = some f)
    (hmm : m ∈ people.map Person.name) (hfm : f ∈ people.map Person.name) :
    parentEntry (get_gene_numbers people og tg) ht p =
      .ok (specContribution og tg ht p) := by
  simp only [parentEntry, hm, hf, lookupGene_eq people og tg m hmm,
    lookupGene_eq people og tg f hfm,
    lookupGene_eq people og tg p.name (List.mem_map.mpr ⟨p, hp, rfl⟩),
    specContribution]
  rw [inherit_eq_spec _ _ _ (geneNumber_cases og tg m)
    (geneNumber_cases og tg f) (geneNumber_cases og tg p.name)]

/-- `joint_probability` on a nonempty structurally well-formed pedigree is
the product of the per-person spec contributions. -/
lemma joint_probability_eq_prod (people : People)
    (og tg ht : List Name) (hne : people ≠ [])
    (hpar : ∀ p ∈ people, (p.mother = none ∧ p.father = none) ∨
      (∃ m ∈ people.map Person.name, ∃ f ∈ people.map Person.name,
        p.mother = some m ∧ p.father = some f)) :
    joint_probability people og tg ht =
      .ok ((people.map (specContribution og tg ht)).prod) := by
  unfold joint_probability
  have h1 : mapEntries (noParentEntry (get_gene_numbers people og tg) ht)
      (people.filter (fun p => p.mother.isNone)) =
      .ok ((people.filter (fun p => p.mother.isNone)).map
        (specContribution og tg ht)) := by
    apply mapEntries_ok
    intro p hp
    obtain ⟨hmem, hcond⟩ := List.mem_filter.mp hp
    exact noParentEntry_spec people og tg ht p hmem
      (Option.isNone_iff_eq_none.mp hcond)
  have h2 : mapEntries (parentEntry (get_gene_numbers people og tg) ht)
      (people.filter (fun p => !p.mother.isNone)) =
      .ok ((people.filter (fun p => !p.mother.isNone)).map
        (specContribution og tg ht)) := by
    apply mapEntries_ok
    intro p hp
    obtain ⟨hmem, hcond⟩ := List.mem_filter.mp hp
    rcases hpar p hmem with ⟨hm, _⟩ | ⟨m, hmm, f, hfm, hm, hf⟩
    · rw [hm] at hcond
      simp at hcond
    · exact parentEntry_spec people og tg ht p hmem m f hm hf hmm hfm
  simp only [h1, h2]
  have hperm : (people.filter (fun p => p.mother.isNone) ++
      people.filter (fun p => !p.mother.isNone)).Perm people :=
    List.filter_append_perm _ people
  rw [← List.map_append]
  have hne' : ((people.filter (fun p => p.mother.isNone) ++
      people.filter (fun p => !p.mother.isNone)).map
        (specContribution og tg ht)) ≠ [] := by
    apply List.ne_nil_of_length_pos
    rw [List.length_map, hperm.length_eq]
    exact List.length_pos.mpr hne
  rw [reduceMul_eq_prod _ hne']
  exact congrArg Except.ok ((hperm.map (specContribution og tg ht)).prod_eq)

/-- Membership in `powerset` is being a sublist. -/
lemma mem_powerset_iff {l s : List Name} : l ∈ powerset s ↔ l.Sublist s := by
  unfold powerset
  rw [List.mem_flatMap]
  constructor
  · rintro ⟨r, _, hl⟩
    exact (List.mem_sublistsLen.mp hl).1
  · intro h
    exact ⟨l.length, List.mem_range.mpr (Nat.lt_succ_of_le h.length_le),
      List.mem_sublistsLen.mpr ⟨h, rfl⟩⟩

/-- With pairwise distinct names, dict lookup of a member's name finds
that member. -/
lemma lookupPerson_eq (people : People)
    (hnd : (people.map Person.name).Nodup) (p : Person) (hp : p ∈ people) :
    lookupPerson people p.name = some p := by
  induction people with
  | nil => cases hp
  | cons q rest ih =>
    rw [List.map_cons, List.nodup_cons] at hnd
    rcases List.mem_cons.mp hp with rfl | hmem
    · simp [lookupPerson, List.find?_cons]
    · have hne : (q.name == p.name) = false := by
        simp only [beq_eq_false_iff_ne]
        intro heq
        exact hnd.1 (heq ▸ List.mem_map.mpr ⟨p, hmem, rfl⟩)
      have hrec := ih hnd.2 hmem
      unfold lookupPerson at hrec ⊢
      rw [List.find?_cons, hne]
      exact hrec

/-- Decomposition of membership in the hypothesis list of `main`. -/
lemma mem_hypothesesList {people : People} {h : Hyp} :
    h ∈ hypothesesList people ↔
      fails_evidence people h.have_trait = false ∧
      h.have_trait ∈ powerset (names people) ∧
      h.one_gene ∈ powerset (names people) ∧
      h.two_genes ∈ powerset ((names people).filter
        (fun nm => !h.one_gene.contains nm)) := by
  unfold hypothesesList
  rw [List.mem_flatMap]
  constructor
  · rintro ⟨ht, hht, hmem⟩
    by_cases hfe : fails_evidence people ht
    · rw [if_pos hfe] at hmem
      cases hmem
    · rw [if_neg hfe] at hmem
      rw [List.mem_flatMap] at hmem
      rcases hmem with ⟨og, hog, hmem⟩
      rcases List.mem_map.mp hmem with ⟨tg, htg, rfl⟩
      exact ⟨Bool.not_eq_true _ ▸ (eq_false_of_ne_true hfe), hht, hog, htg⟩
  · rintro ⟨hfe, hht, hog, htg⟩
    refine ⟨h.have_trait, hht, ?_⟩
    rw [if_neg (by simp [hfe])]
    rw [List.mem_flatMap]
    exact ⟨h.one_gene, hog, List.mem_map.mpr ⟨h.two_genes, htg, rfl⟩⟩

/-- Two `addPD` calls on the same entry commute. -/
lemma addPD_comm (d : PD) (g1 g2 : Nat) (t1 t2 : Bool) (p1 p2 : ℚ) :
    addPD (addPD d g1 t1 p1) g2 t2 p2 = addPD (addPD d g2 t2 p2) g1 t1 p1 := by
  simp only [addPD_fields, PD.mk.injEq]
  refine ⟨?_, ?_, ?_, ?_, ?_⟩ <;> ring

/-- Two `update` calls on the same accumulator commute. -/
lemma update_comm (acc : Acc) (og1 tg1 ht1 : List Name) (p1 : ℚ)
    (og2 tg2 ht2 : List Name) (p2 : ℚ) :
    update (update acc og1 tg1 ht1 p1) og2 tg2 ht2 p2 =
      update (update acc og2 tg2 ht2 p2) og1 tg1 ht1 p1 := by
  unfold update
  rw [List.map_map, List.map_map]
  apply List.map_congr_left
  intro e _
  simp only [Function.comp_apply]
  rw [addPD_comm]

/-- When every hypothesis's joint probability succeeds, the accumulation
loop is the pure fold of `update` over the hypothesis list. -/
lemma accumulateFrom_eq_foldl (people : People) (hyps : List Hyp) :
    ∀ acc : Acc,
      (∀ h ∈ hyps, ∃ q, joint_probability people h.one_gene h.two_genes
        h.have_trait = .ok q) →
      accumulateFrom people acc hyps = .ok (accumulateVals people acc hyps) := by
  induction hyps with
  | nil =>
    intro acc _
    simp [accumulateFrom, accumulateVals]
  | cons h rest ih =>
    intro acc hok
    obtain ⟨q, hq⟩ := hok h (List.mem_cons_self h rest)
    have hv : jointValue people h = q := by
      simp [jointValue, hq]
    unfold accumulateFrom accumulateVals
    rw [hq, List.foldl_cons, hv]
    exact ih (update acc h.one_gene h.two_genes h.have_trait q)
      (fun h' hh' => hok h' (List.mem_cons_of_mem h hh'))

/-- The pure accumulation fold is invariant under permuting the
hypothesis list. -/
lemma accumulateVals_perm (people : People) (acc : Acc)
    {hyps1 hyps2 : List Hyp} (hperm : hyps1.Perm hyps2) :
    accumulateVals people acc hyps1 = accumulateVals people acc hyps2 := by
  unfold accumulateVals
  exact hperm.foldl_eq'
    (fun x _ y _ z => update_comm z x.one_gene x.two_genes x.have_trait
      (jointValue people x) y.one_gene y.two_genes y.have_trait
      (jointValue people y)) acc

/-! Claim theorems. -/

/-- Claim C2: the transmit probability is `MutationRate` for a parent with
0 copies, exactly 0.5 for 1 copy, `1 - MutationRate` for 2 copies, and for
every parent gene count `parent_giving pg false = 1 - parent_giving pg true`
(proved for all `pg : Nat`, which covers the claim's gene counts 0, 1, 2). -/
theorem parent_giving_values :
    parent_giving 0 true = PROBS_mutation ∧
    parent_giving 1 true = 0.5 ∧
    parent_giving 2 true = 1 - PROBS_mutation ∧
    ∀ pg : Nat, parent_giving pg false = 1 - parent_giving pg true := by
  refine ⟨rfl, rfl, rfl, fun pg => ?_⟩
  unfold parent_giving
  norm_num
  split_ifs <;> norm_num [PROBS_mutation]

/-- Claim C9: for parents with gene counts 0 and 2 under
`MutationRate = 0.01`, the child's gene-count probabilities are
0.0099, 0.9802, 0.0099, and they sum exactly to 1. -/
theorem inheritance_example_values :
    PROBS_mutation = 0.01 ∧
    inherit_prob 0 2 0 = 0.99 * 0.01 ∧
    inherit_prob 0 2 2 = 0.01 * 0.99 ∧
    inherit_prob 0 2 1 = 0.99 * 0.99 + 0.01 * 0.01 ∧
    inherit_prob 0 2 0 = 0.0099 ∧
    inherit_prob 0 2 2 = 0.0099 ∧
    inherit_prob 0 2 1 = 0.9802 ∧
    inherit_prob 0 2 0 + inherit_prob 0 2 1 + inherit_prob 0 2 2 = 1 := by
  norm_num [inherit_prob, parent_giving, PROBS_mutation]

/-- Claim C5, counterexample: on an accumulator with a zero total,
`normalize` fails with Python's built-in `ZeroDivisionError`, not with the
`IndeterminateEvidenceError` the claim names (no such class exists in the
source). -/
theorem normalize_zero_is_zero_division :
    normalize [("A", ⟨0, 0, 0, 0, 0⟩)] = .error .zeroDivisionError ∧
    normalize [("A", ⟨0, 0, 0, 0, 0⟩)] ≠ .error .indeterminateEvidenceError := by
  have h : normalize [("A", (⟨0, 0, 0, 0, 0⟩ : PD))] =
      .error .zeroDivisionError := by
    norm_num [normalize, geneTotal, traitTotal]
  exact ⟨h, by rw [h]; simp⟩

/-- Claim C5, amended: `normalize` fails — with `ZeroDivisionError` —
whenever some individual's gene-count mapping or trait mapping sums to
exactly zero; the failure is a raised exception, not a silent NaN. -/
theorem normalize_zero_total_error (acc : Acc)
    (h : ∃ e ∈ acc, geneTotal e.2 = 0 ∨ traitTotal e.2 = 0) :
    normalize acc = .error .zeroDivisionError := by
  induction acc with
  | nil => rcases h with ⟨e, he, _⟩; cases he
  | cons hd tl ih =>
    rcases h with ⟨e, he, hz⟩
    by_cases hhd : geneTotal hd.2 = 0 ∨ traitTotal hd.2 = 0
    · simp only [normalize, if_pos hhd]
    · rcases List.mem_cons.mp he with rfl | hmem
      · exact absurd hz hhd
      · simp only [normalize, if_neg hhd, ih ⟨e, hmem, hz⟩]

/-- Witness for `normalize_zero_total_error` at a concrete accumulator
with a zero trait total. -/
theorem normalize_zero_total_error_witness :
    normalize [("A", ⟨1, 2, 3, 0, 0⟩)] = .error .zeroDivisionError :=
  normalize_zero_total_error [("A", ⟨1, 2, 3, 0, 0⟩)]
    ⟨("A", ⟨1, 2, 3, 0, 0⟩), by simp, Or.inr (by norm_num [traitTotal])⟩

/-- Claim C6, counterexample: `load_data` accepts a row whose mother
reference dangles, whose father is blank while the mother is present, and
whose trait literal `"maybe"` is unrecognized — it returns a pedigree
instead of failing, and the later failure during inference is a plain
`KeyError`, not a `MalformedPedigreeError` raised before inference. -/
theorem load_data_accepts_malformed :
    load_data [⟨"child", "ghost", "", "maybe"⟩] =
      [⟨"child", some "ghost", none, none⟩] ∧
    infer (load_data [⟨"child", "ghost", "", "maybe"⟩]) = .error .keyError ∧
    (Except.error HeredityError.keyError : Except HeredityError Acc) ≠
      .error .malformedPedigreeError := by
  refine ⟨by decide, by decide, by decide⟩

/-- Claim C6, amended: pedigree construction never fails and performs no
validation: with pairwise distinct names, `load_data` returns exactly the
rows decoded one by one — blank parent fields become `None`, any parent
name is stored unresolved, and a trait literal other than `"1"`/`"0"` is
silently treated as unknown. -/
theorem load_data_total_decode (rows : List Row)
    (hnd : (rows.map Row.name).Nodup) :
    load_data rows = rows.map decodeRow := by
  have h := load_data_loop_eq rows [] (by simpa using hnd)
  simpa [load_data] using h

/-- Witness for `load_data_total_decode` on a malformed concrete row. -/
theorem load_data_total_decode_witness :
    load_data [⟨"kid", "nowhere", "", "yes"⟩] =
      ([⟨"kid", "nowhere", "", "yes"⟩] : List Row).map decodeRow :=
  load_data_total_decode [⟨"kid", "nowhere", "", "yes"⟩] (by decide)

/-- Claim C7: when every total is nonzero, `normalize` succeeds, each
person's gene-count distribution sums exactly to 1, the trait distribution
sums exactly to 1, and each normalized entry times its own total gives back
the original entry (relative proportions unchanged). -/
theorem normalize_sums_to_one (acc : Acc)
    (h : ∀ e ∈ acc, geneTotal e.2 ≠ 0 ∧ traitTotal e.2 ≠ 0) :
    normalize acc = .ok (acc.map (fun e => (e.1, normEntry e.2))) ∧
    ∀ e ∈ acc,
      ((normEntry e.2).gene0 + (normEntry e.2).gene1 + (normEntry e.2).gene2
          = 1 ∧
        (normEntry e.2).traitT + (normEntry e.2).traitF = 1) ∧
      ((normEntry e.2).gene0 * geneTotal e.2 = e.2.gene0 ∧
        (normEntry e.2).gene1 * geneTotal e.2 = e.2.gene1 ∧
        (normEntry e.2).gene2 * geneTotal e.2 = e.2.gene2 ∧
        (normEntry e.2).traitT * traitTotal e.2 = e.2.traitT ∧
        (normEntry e.2).traitF * traitTotal e.2 = e.2.traitF) := by
  refine ⟨normalize_ok_of_nonzero acc h, fun e he => ?_⟩
  obtain ⟨hg, ht⟩ := h e he
  refine ⟨⟨?_, ?_⟩, ?_, ?_, ?_, ?_, ?_⟩
  · unfold normEntry
    field_simp
    unfold geneTotal
    ring
  · unfold normEntry
    field_simp
    unfold traitTotal
    ring
  all_goals
    unfold normEntry
    exact div_mul_cancel₀ _ (by assumption)

/-- Witness for `normalize_sums_to_one` at a concrete accumulator. -/
theorem normalize_sums_to_one_witness :
    normalize [("A", ⟨1, 2, 3, 4, 5⟩)] =
      .ok ([("A", (⟨1, 2, 3, 4, 5⟩ : PD))].map
        (fun e => (e.1, normEntry e.2))) :=
  (normalize_sums_to_one [("A", ⟨1, 2, 3, 4, 5⟩)]
    (by norm_num [geneTotal, traitTotal])).1

/-- Claim C10: starting from the zeroed accumulator, after any sequence of
`update` calls every individual's three gene-bucket values and its two
trait-bucket values each sum to the total of all accumulated joint
probabilities (each call adds its mass to exactly one gene bucket and one
trait bucket per individual), so `normalize` divides both of an
individual's mappings by the same total. -/
theorem update_balance (people : People) (calls : List UpdCall) :
    ∀ e ∈ applyUpdates (initAcc people) calls,
      e.2.gene0 + e.2.gene1 + e.2.gene2 = (calls.map UpdCall.p).sum ∧
      e.2.traitT + e.2.traitF = (calls.map UpdCall.p).sum := by
  intro e he
  have h0 : ∀ e ∈ initAcc people,
      e.2.gene0 + e.2.gene1 + e.2.gene2 = (0 : ℚ) ∧
      e.2.traitT + e.2.traitF = (0 : ℚ) := by
    intro e he
    rcases List.mem_map.mp he with ⟨p, _, rfl⟩
    norm_num
  have h := applyUpdates_sums calls (initAcc people) 0 h0 e he
  simpa using h

/-- Claim C1: for a nonempty pedigree whose parent references are
both-or-neither and resolve (the data-model invariant), and disjoint gene
sets, `joint_probability` returns exactly the product over all individuals
of the spec's per-individual contribution — `GenePrior[g] * TraitGivenGene[g][t]`
for a parentless individual, `P(child=g) * TraitGivenGene[g][t]` via the
transmit probabilities for an individual with parents. -/
theorem joint_probability_spec (people : People)
    (one_gene two_genes have_trait : List Name) (hne : people ≠ [])
    (hpar : ∀ p ∈ people, (p.mother = none ∧ p.father = none) ∨
      (∃ m ∈ people.map Person.name, ∃ f ∈ people.map Person.name,
        p.mother = some m ∧ p.father = some f))
    (_hdisj : ∀ nm ∈ one_gene, nm ∉ two_genes) :
    joint_probability people one_gene two_genes have_trait =
      .ok ((people.map (specContribution one_gene two_genes have_trait)).prod) :=
  joint_probability_eq_prod people one_gene two_genes have_trait hne hpar

/-- Witness for `joint_probability_spec` on a concrete two-person pedigree
(a root and a child of that root) and a concrete hypothesis. -/
theorem joint_probability_spec_witness :
    joint_probability
        [⟨"A", none, none, none⟩, ⟨"C", some "A", some "A", none⟩]
        ["A"] [] ["C"] =
      .ok (([⟨"A", none, none, none⟩, ⟨"C", some "A", some "A", none⟩].map
        (specContribution ["A"] [] ["C"])).prod) :=
  joint_probability_spec
    [⟨"A", none, none, none⟩, ⟨"C", some "A", some "A", none⟩]
    ["A"] [] ["C"] (by decide) (by decide) (by decide)

/-- Witness for `update_balance` with one concrete update call: the single
entry of the resulting accumulator satisfies the balance equations. -/
theorem update_balance_witness :
    ((0 : ℚ) + 1/2 + 0 =
      (([⟨["A"], [], ["A"], 1/2⟩] : List UpdCall).map UpdCall.p).sum) ∧
    ((1/2 : ℚ) + 0 =
      (([⟨["A"], [], ["A"], 1/2⟩] : List UpdCall).map UpdCall.p).sum) :=
  update_balance [⟨"A", none, none, none⟩] [⟨["A"], [], ["A"], 1/2⟩]
    ("A", ⟨0, 1/2, 0, 1/2, 0⟩)
    (by norm_num [applyUpdates, update, addPD, initAcc, geneNumber])

/-- Claim C3: with pairwise distinct names, every hypothesis reaching
`joint_probability` is valid — its one-gene and two-gene sets are disjoint
subsets of the names, its trait set is a subset of the names, and
membership in the trait set matches every observed trait; moreover when
every trait is observed, a trait set contradicting the evidence never
appears in the enumeration, hence contributes exactly zero to the
accumulator. -/
theorem hypotheses_valid (people : People)
    (hnd : (people.map Person.name).Nodup) :
    (∀ h ∈ hypothesesList people,
      (∀ nm ∈ h.one_gene, nm ∉ h.two_genes) ∧
      (∀ nm ∈ h.one_gene, nm ∈ names people) ∧
      (∀ nm ∈ h.two_genes, nm ∈ names people) ∧
      (∀ nm ∈ h.have_trait, nm ∈ names people) ∧
      (∀ p ∈ people, ∀ b, p.trait = some b →
        h.have_trait.contains p.name = b)) ∧
    (∀ T : List Name, (∀ p ∈ people, p.trait ≠ none) →
      (∃ p ∈ people, ∃ b, p.trait = some b ∧ T.contains p.name ≠ b) →
      (hypothesesList people).filter (fun h => h.have_trait == T) = []) := by
  have hfe_of_mem : ∀ h : Hyp, h ∈ hypothesesList people →
      fails_evidence people h.have_trait = false :=
    fun h hh => (mem_hypothesesList.mp hh).1
  have hfe_true : ∀ T : List Name,
      (∃ p ∈ people, ∃ b, p.trait = some b ∧ T.contains p.name ≠ b) →
      fails_evidence people T = true := by
    rintro T ⟨p, hp, b, htr, hneq⟩
    unfold fails_evidence
    rw [List.any_eq_true]
    refine ⟨p.name, List.mem_dedup.mpr (List.mem_map.mpr ⟨p, hp, rfl⟩), ?_⟩
    simp only [lookupPerson_eq people hnd p hp, htr]
    have hneq' : b ≠ T.contains p.name := fun heq => hneq heq.symm
    simpa using hneq'
  constructor
  · intro h hh
    obtain ⟨hfe, hht, hog, htg⟩ := mem_hypothesesList.mp hh
    have hogsub := (mem_powerset_iff.mp hog).subset
    have htgsub := (mem_powerset_iff.mp htg).subset
    have htsub := (mem_powerset_iff.mp hht).subset
    refine ⟨?_, hogsub, ?_, htsub, ?_⟩
    · intro nm hnm1 hnm2
      have := (List.mem_filter.mp (htgsub hnm2)).2
      rw [Bool.not_eq_eq_eq_not, Bool.not_true] at this
      exact absurd ((contains_eq_true_iff h.one_gene nm).mpr hnm1)
        (this ▸ Bool.false_ne_true)
    · intro nm hnm
      exact (List.mem_filter.mp (htgsub hnm)).1
    · intro p hp b htr
      unfold fails_evidence at hfe
      rw [List.any_eq_false] at hfe
      have hx := hfe p.name (List.mem_dedup.mpr (List.mem_map.mpr ⟨p, hp, rfl⟩))
      simp only [lookupPerson_eq people hnd p hp, htr] at hx
      have hx2 : b = h.have_trait.contains p.name := by simpa using hx
      exact hx2.symm
  · intro T hall hmis
    rw [List.filter_eq_nil_iff]
    intro h hh hbeq
    have hT : h.have_trait = T := by simpa using hbeq
    have h1 := hfe_of_mem h hh
    rw [hT] at h1
    rw [hfe_true T hmis] at h1
    cases h1

/-- Witness for `hypotheses_valid`: a single observed person, every
trait set contradicting the evidence is filtered out of the enumeration. -/
theorem hypotheses_valid_witness :
    (hypothesesList [⟨"A", none, none, some true⟩]).filter
      (fun h => h.have_trait == ([] : List Name)) = [] :=
  (hypotheses_valid [⟨"A", none, none, some true⟩] (by decide)).2 []
    (by decide) (by decide)

/-- Claim C8: the inference is deterministic — the pipeline is a pure
function, so two runs on the same input are identical — and the
accumulated result does not depend on the enumeration order: any
permutation of the hypothesis list yields the same accumulator (in the
exact rational arithmetic of this model) whenever every hypothesis's joint
probability is defined. -/
theorem inference_deterministic (people : People) (acc0 : Acc)
    (hyps1 hyps2 : List Hyp) (hperm : hyps1.Perm hyps2)
    (hok : ∀ h ∈ hyps1, ∃ q, joint_probability people h.one_gene
      h.two_genes h.have_trait = .ok q) :
    infer people = infer people ∧
    accumulateFrom people acc0 hyps1 = accumulateFrom people acc0 hyps2 := by
  refine ⟨rfl, ?_⟩
  have hok2 : ∀ h ∈ hyps2, ∃ q, joint_probability people h.one_gene
      h.two_genes h.have_trait = .ok q :=
    fun h hh => hok h (hperm.mem_iff.mpr hh)
  rw [accumulateFrom_eq_foldl people hyps1 acc0 hok,
    accumulateFrom_eq_foldl people hyps2 acc0 hok2,
    accumulateVals_perm people acc0 hperm]

/-- Witness for `inference_deterministic`: swapping two hypotheses of a
one-person pedigree leaves the accumulated result unchanged. -/
theorem inference_deterministic_witness :
    accumulateFrom [⟨"A", none, none, none⟩]
        (initAcc [⟨"A", none, none, none⟩])
        [⟨[], [], []⟩, ⟨["A"], [], []⟩] =
      accumulateFrom [⟨"A", none, none, none⟩]
        (initAcc [⟨"A", none, none, none⟩])
        [⟨["A"], [], []⟩, ⟨[], [], []⟩] :=
  (inference_deterministic [⟨"A", none, none, none⟩]
    (initAcc [⟨"A", none, none, none⟩])
    [⟨[], [], []⟩, ⟨["A"], [], []⟩] [⟨["A"], [], []⟩, ⟨[], [], []⟩]
    (List.Perm.swap (⟨["A"], [], []⟩ : Hyp) (⟨[], [], []⟩ : Hyp) [])
    (fun h _ =>
      ⟨(([⟨"A", none, none, none⟩] : People).map
          (specContribution h.one_gene h.two_genes h.have_trait)).prod,
        joint_probability_eq_prod [⟨"A", none, none, none⟩]
          h.one_gene h.two_genes h.have_trait (by decide)
          (by decide)⟩)).2

set_option maxRecDepth 40000 in
set_option maxHeartbeats 4000000 in
/-- Claim C4, counterexample: in the pedigree with root `A` and child `C`
(both of `C`'s parent fields referring to `A`), with no trait observed
anywhere, the inference succeeds and `C`'s normalized probability of gene
count 0 is 0.948397, not the GenePrior value 0.96 — an individual with
parents does not follow GenePrior even though its trait is unobserved. -/
theorem child_marginal_not_gene_prior :
    ((infer [⟨"A", none, none, none⟩, ⟨"C", some "A", some "A", none⟩]).toOption.bind
      fun acc => (acc.find? (fun e => e.1 == "C")).map fun e => e.2.gene0) =
      some (948397/1000000 : ℚ) ∧
    (948397/1000000 : ℚ) ≠ PROBS_gene 0 := by
  constructor
  · simp [infer, accumulate, accumulateFrom, hypothesesList, powerset, names,
      fails_evidence, lookupPerson, joint_probability, get_gene_numbers,
      geneNumber, noParentEntry, parentEntry, lookupGene, mapEntries,
      reduceMul, PROBS_gene, PROBS_trait, PROBS_mutation, parent_giving,
      inherit_prob, update, addPD, initAcc, normalize, geneTotal, traitTotal,
      normEntry, Except.toOption]
    norm_num
    exact ⟨"C", _, Or.inr ⟨by decide, rfl, rfl⟩, rfl⟩
  · norm_num [PROBS_gene]

set_option maxRecDepth 40000 in
set_option maxHeartbeats 4000000 in
/-- Claim C4, amended: for a pedigree consisting of a single parentless
individual whose trait is not observed, the normalized gene-count
distribution equals GenePrior exactly (0.96, 0.03, 0.01); for individuals
with parents, or with relatives carrying trait evidence, the distribution
generally differs. -/
theorem single_root_gene_prior (nm : Name) :
    infer [⟨nm, none, none, none⟩] =
      .ok [(nm, ⟨PROBS_gene 0, PROBS_gene 1, PROBS_gene 2,
        329/10000, 9671/10000⟩)] := by
  simp [infer, accumulate, accumulateFrom, hypothesesList, powerset, names,
    fails_evidence, lookupPerson, joint_probability, get_gene_numbers,
    geneNumber, noParentEntry, parentEntry, lookupGene, mapEntries,
    reduceMul, PROBS_gene, PROBS_trait, PROBS_mutation, parent_giving,
    inherit_prob, update, addPD, initAcc, normalize, geneTotal, traitTotal,
    normEntry]
  norm_num

end Heredity
